import Mathlib

/-!
Verification of the envx local storage engine.

The development shallowly embeds the three historical incarnations of the
`DatabaseManager` class of the envx repository:

* namespace `Upsert`   — the tag-unique upsert engine (`src/utils/db.ts`):
  table `env_history(id, key, value, timestamp, tag NOT NULL)` with a unique
  index on `(key, tag)`, operations `getNextAutoTagNumber`,
  `batchUpsertTaggedValues` and `getTaggedValues`.
* namespace `Versioned` — the append/versioning engine (`src/utils/env.ts`,
  later design): table with a nullable `version` column, operations
  `addHistoryRecord`, `addHistoryRecords`, `getCurrentVersion`,
  `getLatestVersion`.
* namespace `Migration` — the schema migrations run by `initDatabase`
  (`src/utils/env.ts`): row-copying table rebuilds inside one transaction.

Tables are lists of rows in insertion (rowid) order; the AUTOINCREMENT id
sequence is an explicit `nextId` field.  SQL queries are translated clause by
clause; `ORDER BY c DESC LIMIT 1` is modelled as the first row attaining the
maximum of `c` (SQLite leaves the tie order unspecified; theorems that depend
on a tie never arise in the claims).  Timestamps (`new Date().toISOString()`)
are explicit string parameters.
-/

namespace Upsert

/-- A row of `env_history` in the upsert-engine schema (`src/utils/db.ts`):
`id INTEGER PRIMARY KEY AUTOINCREMENT, key TEXT NOT NULL, value TEXT NOT NULL,
timestamp TEXT NOT NULL, tag TEXT NOT NULL`. -/
structure EnvRow where
  id : Nat
  key : String
  value : String
  timestamp : String
  tag : String
deriving DecidableEq, Repr

/-- The table `env_history` plus the AUTOINCREMENT sequence. -/
structure DbState where
  rows : List EnvRow
  nextId : Nat
deriving DecidableEq, Repr

/-- A freshly created store. -/
def emptyDb : DbState := ⟨[], 1⟩

/-- ASCII lower-casing of one character (SQLite `LIKE` folds A–Z only). -/
def lowerC (c : Char) : Char :=
  if 'A' ≤ c && c ≤ 'Z' then Char.ofNat (c.toNat + 32) else c

/-- The SQL filter `tag LIKE 'auto-%'`: the first five characters equal
`auto-` up to ASCII case. -/
def likeAuto (t : String) : Bool :=
  match t.toList with
  | a :: b :: c :: d :: e :: _ =>
      lowerC a == 'a' && lowerC b == 'u' && lowerC c == 't' &&
      lowerC d == 'o' && lowerC e == '-'
  | _ => false

/-- Decimal digit test (the JavaScript regex class `\d`). -/
def isDigitChar (c : Char) : Bool := '0' ≤ c && c ≤ '9'

/-- Whitespace skipped by SQLite's `CAST (.. AS INTEGER)`. -/
def wsChar (c : Char) : Bool :=
  c == ' ' || c == '\t' || c == '\n' || c == '\r'

/-- Numeric value of a digit string. -/
def digitsToNat (l : List Char) : Nat :=
  l.foldl (fun a c => a * 10 + (c.toNat - 48)) 0

/-- SQLite `CAST(s AS INTEGER)`: skip leading whitespace, an optional sign,
then the longest digit prefix; anything else yields `0`. -/
def castIntChars (l : List Char) : Int :=
  match l.dropWhile wsChar with
  | [] => 0
  | c :: rest =>
      if c == '-' then -(Int.ofNat (digitsToNat (rest.takeWhile isDigitChar)))
      else if c == '+' then Int.ofNat (digitsToNat (rest.takeWhile isDigitChar))
      else Int.ofNat (digitsToNat ((c :: rest).takeWhile isDigitChar))

/-- `CAST(SUBSTR(tag, 6) AS INTEGER)`: cast of the tag minus its first five
characters. -/
def castSfx (t : String) : Int := castIntChars (t.toList.drop 5)

/-- The JavaScript regex `^auto-(\d+)$` together with `parseInt(m[1], 10)`:
`some n` iff the tag is exactly `auto-` followed by one or more digits. -/
def parseAutoExact (t : String) : Option Nat :=
  match t.toList with
  | 'a' :: 'u' :: 't' :: 'o' :: '-' :: rest =>
      if rest ≠ [] ∧ rest.all isDigitChar then some (digitsToNat rest) else none
  | _ => none

/-- `ORDER BY CAST(SUBSTR(tag, 6) AS INTEGER) DESC LIMIT 1` over a list of
tags: the first tag attaining the maximal cast value. -/
def topAutoTag : List String → Option String
  | [] => none
  | t :: ts =>
      match topAutoTag ts with
      | none => some t
      | some u => if castSfx u > castSfx t then some u else some t

/-- `getNextAutoTagNumber` (`src/utils/db.ts` lines 58–77): fetch the single
`auto-%` tag with the greatest cast suffix; if it matches `^auto-(\d+)$`
return that number plus one, otherwise `1`. -/
def getNextAutoTagNumber (st : DbState) : Nat :=
  match topAutoTag ((st.rows.map (fun r => r.tag)).filter likeAuto) with
  | none => 1
  | some t =>
      match parseAutoExact t with
      | none => 1
      | some n => n + 1

/-- The auto-generated tag name `auto-<N>`. -/
def autoTagName (st : DbState) : String :=
  "auto-" ++ toString (getNextAutoTagNumber st)

/-- Modelled on the spec sentence for the auto-tag numbering rule (§3):
`N = 1 + max(N' such that an existing tag matches auto-<N'>)`, defaulting to
`1` when no tag matches the exact pattern; used to compare the code's
`getNextAutoTagNumber` against the specified rule. -/
def specNextAutoTagNumber (tags : List String) : Nat :=
  (tags.filterMap parseAutoExact).foldl max 0 + 1

/-- Tag resolution in `batchUpsertTaggedValues`: `if (!currentTag)` — the JS
falsiness test sends both an omitted tag and the empty string to the
auto-generated name. -/
def resolvedTag (st : DbState) (tag : Option String) : String :=
  match tag with
  | some t => if t == "" then autoTagName st else t
  | none => autoTagName st

/-- One `INSERT .. ON CONFLICT(key, tag) DO UPDATE SET value, timestamp`
statement: update the matching `(key, tag)` row in place, or append a fresh
row with the next AUTOINCREMENT id. -/
def upsertRow (st : DbState) (k v ts tag : String) : DbState :=
  if st.rows.any (fun r => r.key == k && r.tag == tag) then
    { st with rows := st.rows.map (fun r =>
        if r.key == k && r.tag == tag then { r with value := v, timestamp := ts } else r) }
  else
    { rows := st.rows ++ [⟨st.nextId, k, v, ts, tag⟩], nextId := st.nextId + 1 }

/-- The loop body of `batchUpsertTaggedValues`: entries whose value is
`null`/`undefined` (modelled as `none`) are skipped, the rest are upserted in
order under the already-resolved tag and shared timestamp. -/
def applyEntries (st : DbState) (tag ts : String) : List (String × Option String) → DbState
  | [] => st
  | (_, none) :: rest => applyEntries st tag ts rest
  | (k, some v) :: rest => applyEntries (upsertRow st k v ts tag) tag ts rest

/-- `batchUpsertTaggedValues(envs, tag?)` (`src/utils/db.ts` lines 79–102):
resolve the tag (auto-generating when falsy), then upsert every entry of the
batch inside one transaction with a single timestamp. -/
def batchUpsertTaggedValues (st : DbState) (envs : List (String × Option String))
    (tag : Option String) (ts : String) : DbState :=
  applyEntries st (resolvedTag st tag) ts envs

/-- Building a JavaScript object by successive `obj[k] = v` assignments and
reading key `q`: the last assignment to `q` wins. -/
def objGet : List (String × String) → String → Option String
  | [], _ => none
  | (k, v) :: rest, q =>
      match objGet rest q with
      | some w => some w
      | none => if k == q then some v else none

/-- `SELECT key, value FROM env_history WHERE tag = ?` in rowid order. -/
def selectTagged (st : DbState) (tag : String) : List (String × String) :=
  (st.rows.filter (fun r => r.tag == tag)).map (fun r => (r.key, r.value))

/-- `getTaggedValues(tag)` (`src/utils/db.ts` lines 104–115) read at one key:
the map assembled from the tag's rows, queried at `q`. -/
def getTaggedValues (st : DbState) (tag : String) (q : String) : Option String :=
  objGet (selectTagged st tag) q

/-- A string-valued map, as handed to `batchUpsertTaggedValues` by callers
whose values are all present. -/
def toEntries (M : List (String × String)) : List (String × Option String) :=
  M.map (fun p => (p.1, some p.2))

/-- Reading a batch of entries as a map: `none` values never assign. -/
def mGet (envs : List (String × Option String)) (q : String) : Option String :=
  objGet (envs.filterMap (fun p => p.2.map (fun v => (p.1, v)))) q

/-- Left-biased choice on optional values. -/
def orO : Option String → Option String → Option String
  | some v, _ => some v
  | none, x => x

/-- The rows stored under a tag. -/
def rowsWithTag (st : DbState) (tag : String) : List EnvRow :=
  st.rows.filter (fun r => r.tag == tag)

/-- The rows stored for a key (any tag). -/
def rowsWithKey (st : DbState) (k : String) : List EnvRow :=
  st.rows.filter (fun r => r.key == k)

/-- The keys currently stored under a tag, in rowid order. -/
def taggedKeys (st : DbState) (tag : String) : List String :=
  (rowsWithTag st tag).map (fun r => r.key)

end Upsert

namespace Upsert

/-- `SELECT key, value .. WHERE tag = ?` at the row-list level. -/
def selectRows (rows : List EnvRow) (tag : String) : List (String × String) :=
  (rows.filter (fun r => r.tag == tag)).map (fun r => (r.key, r.value))

/-- Tag-scoped lookup at the row-list level. -/
def lookupRows (rows : List EnvRow) (tag q : String) : Option String :=
  objGet (selectRows rows tag) q

/-- Keys under a tag at the row-list level. -/
def keysRows (rows : List EnvRow) (tag : String) : List String :=
  (rows.filter (fun r => r.tag == tag)).map (fun r => r.key)

end Upsert

namespace Versioned

/-- A row of `env_history` in the later append/versioning schema
(`src/utils/env.ts` lines 622–633): nullable `version`, nullable `tag`. -/
structure VRecord where
  id : Nat
  key : String
  value : String
  version : Option Nat
  timestamp : String
  action : String
  source : String
  tag : Option String
deriving DecidableEq, Repr

/-- The table plus the AUTOINCREMENT sequence. -/
structure VState where
  rows : List VRecord
  nextId : Nat
deriving DecidableEq, Repr

/-- A freshly created store. -/
def emptyState : VState := ⟨[], 1⟩

/-- The caller-supplied part of a record (`Omit<EnvHistoryRecord, 'id' | 'version'>`). -/
structure VInput where
  key : String
  value : String
  timestamp : String
  action : String
  source : String
  tag : Option String
deriving DecidableEq, Repr

/-- `record.tag || null`: JS falsiness sends both an absent tag and the empty
string to SQL `NULL`. -/
def normTag : Option String → Option String
  | some "" => none
  | x => x

/-- The non-null versions stored for a key, in rowid order. -/
def versionsRows (rows : List VRecord) (k : String) : List Nat :=
  rows.filterMap (fun r => if r.key == k then r.version else none)

/-- The non-null versions stored for a key. -/
def versionsFor (st : VState) (k : String) : List Nat :=
  versionsRows st.rows k

/-- `getCurrentVersion` (`src/utils/env.ts` lines 684–691):
`SELECT MAX(version) .. WHERE key = ? AND version IS NOT NULL`, then
`maxVersion || 0`. -/
def getCurrentVersion (st : VState) (k : String) : Nat :=
  (versionsFor st k).foldl max 0

/-- `addHistoryRecord` (`src/utils/env.ts` lines 696–707): insert a new row
with `version = getCurrentVersion(key) + 1`. -/
def addHistoryRecord (st : VState) (rec : VInput) : VState :=
  { rows := st.rows ++ [⟨st.nextId, rec.key, rec.value,
      some (getCurrentVersion st rec.key + 1), rec.timestamp, rec.action, rec.source,
      normTag rec.tag⟩],
    nextId := st.nextId + 1 }

/-- `addHistoryRecords` (`src/utils/env.ts` lines 712–735): the same insert
for each entry inside one transaction; `getCurrentVersion` is re-evaluated on
each iteration and sees the rows inserted earlier in the same transaction. -/
def addHistoryRecords (st : VState) : List VInput → VState
  | [] => st
  | r :: rs => addHistoryRecords (addHistoryRecord st r) rs

/-- `n` successive `addHistoryRecord` calls for key `k` against a fresh
store, the `i`-th taking the rest of its fields from `f i`. -/
def repeatAddKey (k : String) (f : Nat → VInput) : Nat → VState
  | 0 => emptyState
  | n + 1 => addHistoryRecord (repeatAddKey k f n) { f n with key := k }

/-- The version used for the `ORDER BY version DESC` comparison. -/
def vval (r : VRecord) : Nat := r.version.getD 0

/-- `SELECT * WHERE key = ? AND version IS NOT NULL ORDER BY version DESC
LIMIT 1` over a row list: the first row attaining the maximal version. -/
def pickLatest (k : String) : List VRecord → Option VRecord
  | [] => none
  | r :: rs =>
      if r.key == k && r.version.isSome then
        match pickLatest k rs with
        | none => some r
        | some a => if vval a > vval r then some a else some r
      else pickLatest k rs

/-- `getLatestVersion` (`src/utils/env.ts` lines 767–777). -/
def getLatestVersion (st : VState) (k : String) : Option VRecord :=
  pickLatest k st.rows

/-- Whether the key has any record with a non-null version. -/
def hasVersioned (st : VState) (k : String) : Bool :=
  st.rows.any (fun r => r.key == k && r.version.isSome)

end Versioned

namespace Migration

/-- A row of the legacy `env_history` shape whose `version` column is
`INTEGER NOT NULL` (the shape that triggers the migration at
`src/utils/env.ts` lines 644–678). -/
structure RowNN where
  id : Nat
  key : String
  value : String
  version : Nat
  timestamp : String
  action : String
  source : String
  tag : Option String
deriving DecidableEq, Repr

/-- A row of the target shape with nullable `version`
(`src/utils/env.ts` lines 622–633). -/
structure RowFull where
  id : Nat
  key : String
  value : String
  version : Option Nat
  timestamp : String
  action : String
  source : String
  tag : Option String
deriving DecidableEq, Repr

/-- A row of the version-free shape created by the later `initDatabase`
(`src/utils/env.ts` lines 236–246). -/
structure RowNoV where
  id : Nat
  key : String
  value : String
  timestamp : String
  action : String
  source : String
  tag : Option String
deriving DecidableEq, Repr

/-- One row of `INSERT INTO env_history_new (id, key, value, timestamp,
action, source, tag) SELECT id, key, value, timestamp, action, source, tag
FROM env_history` — the migration that drops the `version` column
(`src/utils/env.ts` lines 274–277). -/
def dropVersionRow (r : RowFull) : RowNoV :=
  ⟨r.id, r.key, r.value, r.timestamp, r.action, r.source, r.tag⟩

/-- The row copy of the version-dropping migration, in rowid order. -/
def migrateDropVersion (rows : List RowFull) : List RowNoV :=
  rows.map dropVersionRow

/-- One row of `INSERT INTO env_history_new (id, key, value, version,
timestamp, action, source, tag) SELECT …` — the NOT-NULL→nullable migration
(`src/utils/env.ts` lines 663–666). -/
def relaxVersionRow (r : RowNN) : RowFull :=
  ⟨r.id, r.key, r.value, some r.version, r.timestamp, r.action, r.source, r.tag⟩

/-- The row copy of the NOT-NULL→nullable migration, in rowid order. -/
def migrateRelaxVersion (rows : List RowNN) : List RowFull :=
  rows.map relaxVersionRow

/-- Stable insertion into a timestamp-descending list: an element goes
before the first strictly-older entry and after equal timestamps. -/
def insertTsDesc {α : Type} (ts : α → String) (a : α) : List α → List α
  | [] => [a]
  | b :: bs => if ts a < ts b then b :: insertTsDesc ts a bs else a :: b :: bs

/-- Stable sort by timestamp, newest first — the model of
`ORDER BY timestamp DESC`. -/
def sortTsDesc {α : Type} (ts : α → String) : List α → List α
  | [] => []
  | a :: rest => insertTsDesc ts a (sortTsDesc ts rest)

/-- `getAllHistory(limit)` over a legacy (version NOT NULL) table. -/
def getAllHistoryNN (rows : List RowNN) (limit : Nat) : List RowNN :=
  (sortTsDesc (fun r => r.timestamp) rows).take limit

/-- `getAllHistory(limit)` over the nullable-version table
(`src/utils/env.ts` lines 782–790). -/
def getAllHistoryFull (rows : List RowFull) (limit : Nat) : List RowFull :=
  (sortTsDesc (fun r => r.timestamp) rows).take limit

/-- `getAllHistory(limit)` over the version-free table. -/
def getAllHistoryNoV (rows : List RowNoV) (limit : Nat) : List RowNoV :=
  (sortTsDesc (fun r => r.timestamp) rows).take limit

end Migration

namespace Migration

/-- The `env_history` table as seen by the migration: either still in the
legacy NOT-NULL-version shape or already rebuilt in the target shape. -/
inductive MigTable
  | legacy (rows : List RowNN)
  | current (rows : List RowFull)
deriving DecidableEq, Repr

/-- The tables the migration touches: `env_history` and the scratch table
`env_history_new`; `none` means the table does not exist. -/
structure MigState where
  main : Option MigTable
  tmp : Option (List RowFull)
deriving DecidableEq, Repr

/-- What `SELECT id, key, value, version, timestamp, action, source, tag`
reads off the `env_history` table, in target-row form. -/
def tableRows : MigTable → List RowFull
  | .legacy rows => migrateRelaxVersion rows
  | .current rows => rows

/-- `CREATE TABLE IF NOT EXISTS env_history_new (…)`. -/
def stepCreateNew (s : MigState) : Option MigState :=
  match s.tmp with
  | none => some { s with tmp := some [] }
  | some _ => some s

/-- `INSERT INTO env_history_new … SELECT … FROM env_history`. -/
def stepCopy (s : MigState) : Option MigState :=
  match s.main, s.tmp with
  | some t, some n => some { s with tmp := some (n ++ tableRows t) }
  | _, _ => none

/-- `DROP TABLE env_history`. -/
def stepDropOld (s : MigState) : Option MigState :=
  match s.main with
  | some _ => some { s with main := none }
  | none => none

/-- `ALTER TABLE env_history_new RENAME TO env_history`. -/
def stepRename (s : MigState) : Option MigState :=
  match s.tmp, s.main with
  | some n, none => some ⟨some (.current n), none⟩
  | _, _ => none

/-- `CREATE INDEX IF NOT EXISTS …` — no effect on rows. -/
def stepIndexes (s : MigState) : Option MigState := some s

/-- The five statements of the migration body, each wrapped with a failure
oracle: `inject i = true` makes the `i`-th statement raise. -/
def injectedSteps (inject : Nat → Bool) : List (MigState → Option MigState) :=
  [fun s => if inject 0 then none else stepCreateNew s,
   fun s => if inject 1 then none else stepCopy s,
   fun s => if inject 2 then none else stepDropOld s,
   fun s => if inject 3 then none else stepRename s,
   fun s => if inject 4 then none else stepIndexes s]

/-- Sequential execution of statements on the working state; the first
failure aborts the whole run. -/
def runSteps : List (MigState → Option MigState) → MigState → Option MigState
  | [], s => some s
  | f :: fs, s =>
      match f s with
      | none => none
      | some s2 => runSteps fs s2

/-- `this.db.transaction(() => { … })()` around the migration body
(`src/utils/env.ts` lines 650–677): better-sqlite3 commits the working state
when the callback returns and rolls back to the pre-transaction state when
any statement throws. -/
def runMigrationTxn (s : MigState) (inject : Nat → Bool) : MigState :=
  match runSteps (injectedSteps inject) s with
  | some s2 => s2
  | none => s

/-- A store still holding the legacy table. -/
def legacyStore (rows : List RowNN) : MigState := ⟨some (.legacy rows), none⟩

/-- The fully migrated store: same rows, nullable version, scratch table gone. -/
def migratedStore (rows : List RowNN) : MigState :=
  ⟨some (.current (migrateRelaxVersion rows)), none⟩

end Migration

/-- C2: from a fresh store, `batchUpsertTaggedValues({"A":"x","B":"y"}, "v1")`
followed by `batchUpsertTaggedValues({"A":"z"}, "v1")` leaves exactly two rows
under tag `v1`: the key absent from the second batch keeps its value, the key
present is overwritten in its original row (same id), and
`getTaggedValues("v1")` is `{"A":"z","B":"y"}`. -/
theorem c2_second_batch_overwrites_in_place :
    (Upsert.batchUpsertTaggedValues
        (Upsert.batchUpsertTaggedValues Upsert.emptyDb
          [("A", some "x"), ("B", some "y")] (some "v1") "t1")
        [("A", some "z")] (some "v1") "t2").rows =
      [⟨1, "A", "z", "t2", "v1"⟩, ⟨2, "B", "y", "t1", "v1"⟩] ∧
    Upsert.getTaggedValues
        (Upsert.batchUpsertTaggedValues
          (Upsert.batchUpsertTaggedValues Upsert.emptyDb
            [("A", some "x"), ("B", some "y")] (some "v1") "t1")
          [("A", some "z")] (some "v1") "t2") "v1" "A" = some "z" ∧
    Upsert.getTaggedValues
        (Upsert.batchUpsertTaggedValues
          (Upsert.batchUpsertTaggedValues Upsert.emptyDb
            [("A", some "x"), ("B", some "y")] (some "v1") "t1")
          [("A", some "z")] (some "v1") "t2") "v1" "B" = some "y" ∧
    (Upsert.rowsWithTag
        (Upsert.batchUpsertTaggedValues
          (Upsert.batchUpsertTaggedValues Upsert.emptyDb
            [("A", some "x"), ("B", some "y")] (some "v1") "t1")
          [("A", some "z")] (some "v1") "t2") "v1").length = 2 := by
  refine ⟨?_, ?_, ?_, ?_⟩ <;> decide

/-- C1 counterexample: on a store that already holds a row `("X","1")` under
tag `v1`, `batchUpsertTaggedValues({"A":"x"}, "v1")` followed by
`getTaggedValues("v1")` still reports the pair `("X","1")`, which is not in
the map `{"A":"x"}` — so the result is not exactly the upserted map, refuting
the claim for arbitrary store states. -/
theorem c1_counterexample :
    Upsert.getTaggedValues
        (Upsert.batchUpsertTaggedValues ⟨[⟨1, "X", "1", "t0", "v1"⟩], 2⟩
          [("A", some "x")] (some "v1") "t1") "v1" "X" = some "1" ∧
    Upsert.objGet [("A", "x")] "X" = none := by
  exact ⟨by decide, by decide⟩

/-- C5 counterexample: with existing tags `auto-3` (well-formed) and
`auto-5x` (malformed, but its suffix casts to the larger integer 5),
`getNextAutoTagNumber` inspects only the top row of the cast ordering, fails
the exact-pattern match on `auto-5x`, and falls back to 1 — the generated tag
is `auto-1`, not `auto-4` as the spec's formula (1 + max well-formed number)
requires.  The malformed tag thus resets the counter instead of being
ignored. -/
theorem c5_counterexample :
    Upsert.autoTagName ⟨[⟨1, "K", "v", "t", "auto-3"⟩, ⟨2, "L", "v", "t", "auto-5x"⟩], 3⟩ =
      "auto-1" ∧
    Upsert.specNextAutoTagNumber ["auto-3", "auto-5x"] = 4 := by
  exact ⟨by decide, by decide⟩

namespace Upsert
theorem getTaggedValues_eq_lookupRows (st : DbState) (tag q : String) :
    getTaggedValues st tag q = lookupRows st.rows tag q := rfl

theorem taggedKeys_eq_keysRows (st : DbState) (tag : String) :
    taggedKeys st tag = keysRows st.rows tag := rfl

theorem lookupRows_nil (tag q : String) : lookupRows [] tag q = none := rfl

theorem lookupRows_cons (r : EnvRow) (rows : List EnvRow) (tag q : String) :
    lookupRows (r :: rows) tag q =
      match lookupRows rows tag q with
      | some w => some w
      | none => if r.tag == tag && r.key == q then some r.value else none := by
  by_cases h : r.tag = tag
  · subst h
    simp only [lookupRows, selectRows, List.filter_cons, beq_self_eq_true, if_pos,
      List.map_cons, objGet]
    cases hrec : objGet ((rows.filter (fun r2 => r2.tag == r.tag)).map
        (fun r2 => (r2.key, r2.value))) q <;> simp [Bool.true_and]
  · have hb : (r.tag == tag) = false := by simpa using h
    simp only [lookupRows, selectRows, List.filter_cons, hb, Bool.false_and, if_neg,
      Bool.not_eq_true, cond_false]
    cases hrec : objGet ((rows.filter (fun r2 => r2.tag == tag)).map
        (fun r2 => (r2.key, r2.value))) q <;> simp

theorem lookupRows_eq_none (rows : List EnvRow) (tag q : String)
    (h : rows.any (fun r => r.key == q && r.tag == tag) = false) :
    lookupRows rows tag q = none := by
  induction rows with
  | nil => rfl
  | cons r rs ih =>
      simp only [List.any_cons, Bool.or_eq_false_iff] at h
      rw [lookupRows_cons, ih h.2]
      have : (r.tag == tag && r.key == q) = false := by
        rcases Bool.and_eq_false_iff.mp h.1 with h1 | h1 <;> simp [h1, Bool.and_comm]
      simp [this]

theorem lookupRows_append_single (rows : List EnvRow) (r : EnvRow) (tag q : String) :
    lookupRows (rows ++ [r]) tag q =
      if r.tag == tag && r.key == q then some r.value else lookupRows rows tag q := by
  induction rows with
  | nil =>
      rw [List.nil_append, lookupRows_cons, lookupRows_nil]
  | cons r0 rs ih =>
      rw [List.cons_append, lookupRows_cons, ih, lookupRows_cons]
      by_cases h : (r.tag == tag && r.key == q) = true
      · simp [h]
      · simp only [eq_false_of_ne_true h, if_neg, Bool.false_eq_true, not_false_iff]


theorem any_match_map_update (rows : List EnvRow) (k v ts tag : String) :
    ((rows.map (fun r =>
        if r.key == k && r.tag == tag then { r with value := v, timestamp := ts } else r)).any
      (fun r => r.key == k && r.tag == tag)) =
    rows.any (fun r => r.key == k && r.tag == tag) := by
  induction rows with
  | nil => rfl
  | cons r rs ih =>
      simp only [List.map_cons, List.any_cons, ih]
      by_cases hcase : (r.key == k && r.tag == tag) = true
      · simp [hcase]
      · simp [eq_false_of_ne_true hcase]

theorem lookupRows_map_update_ne (rows : List EnvRow) (k v ts tag q : String)
    (hq : q ≠ k) :
    lookupRows (rows.map (fun r =>
        if r.key == k && r.tag == tag then { r with value := v, timestamp := ts } else r))
      tag q = lookupRows rows tag q := by
  induction rows with
  | nil => rfl
  | cons r rs ih =>
      rw [List.map_cons, lookupRows_cons, ih, lookupRows_cons]
      by_cases hr : (r.key == k && r.tag == tag) = true
      · have h1 : r.key = k := by simpa using (Bool.and_eq_true_iff.mp hr).1
        have hkey : (r.key == q) = false := by
          rw [h1]
          exact beq_eq_false_iff_ne.mpr (Ne.symm hq)
        simp only [hr, if_pos]
        cases lookupRows rs tag q <;> simp [hkey]
      · simp only [eq_false_of_ne_true hr, if_neg, Bool.false_eq_true, not_false_iff]

theorem lookupRows_map_update_self (rows : List EnvRow) (k v ts tag : String)
    (h : rows.any (fun r => r.key == k && r.tag == tag) = true) :
    lookupRows (rows.map (fun r =>
        if r.key == k && r.tag == tag then { r with value := v, timestamp := ts } else r))
      tag k = some v := by
  induction rows with
  | nil => simp at h
  | cons r rs ih =>
      rw [List.map_cons, lookupRows_cons]
      by_cases hrs : rs.any (fun r => r.key == k && r.tag == tag) = true
      · rw [ih hrs]
      · have hrs0 : rs.any (fun r => r.key == k && r.tag == tag) = false := by
          simpa using hrs
        have hrec : lookupRows (rs.map (fun r =>
            if r.key == k && r.tag == tag then { r with value := v, timestamp := ts } else r))
            tag k = none := by
          apply lookupRows_eq_none
          rw [any_match_map_update, hrs0]
        rw [hrec]
        have hr : (r.key == k && r.tag == tag) = true := by
          simp only [List.any_cons, hrs0, Bool.or_false] at h
          exact h
        have h1 : r.key = k := by simpa using (Bool.and_eq_true_iff.mp hr).1
        have h2 : r.tag = tag := by simpa using (Bool.and_eq_true_iff.mp hr).2
        simp [hr, h1, h2]

theorem getTaggedValues_upsertRow (st : DbState) (k v ts tag q : String) :
    getTaggedValues (upsertRow st k v ts tag) tag q =
      if q = k then some v else getTaggedValues st tag q := by
  rw [getTaggedValues_eq_lookupRows, getTaggedValues_eq_lookupRows, upsertRow]
  by_cases hex : st.rows.any (fun r => r.key == k && r.tag == tag) = true
  · rw [if_pos hex]
    by_cases hq : q = k
    · rw [if_pos hq]
      show lookupRows (st.rows.map (fun r =>
          if r.key == k && r.tag == tag then { r with value := v, timestamp := ts } else r))
        tag q = some v
      rw [hq]
      exact lookupRows_map_update_self st.rows k v ts tag hex
    · rw [if_neg hq]
      exact lookupRows_map_update_ne st.rows k v ts tag q hq
  · rw [if_neg hex]
    show lookupRows (st.rows ++ [⟨st.nextId, k, v, ts, tag⟩]) tag q =
      if q = k then some v else lookupRows st.rows tag q
    rw [lookupRows_append_single]
    by_cases hq : q = k
    · rw [if_pos hq, hq]
      simp
    · rw [if_neg hq]
      have h1 : (k == q) = false := beq_eq_false_iff_ne.mpr (Ne.symm hq)
      simp [h1]

theorem mGet_nil (q : String) : mGet [] q = none := rfl

theorem mGet_cons_none (k q : String) (rest : List (String × Option String)) :
    mGet ((k, none) :: rest) q = mGet rest q := rfl

theorem mGet_cons_some (k v q : String) (rest : List (String × Option String)) :
    mGet ((k, some v) :: rest) q =
      orO (mGet rest q) (if k == q then some v else none) := by
  simp only [mGet, List.filterMap_cons, Option.map_some]
  cases hrec : objGet (rest.filterMap (fun p => p.2.map (fun w => (p.1, w)))) q <;>
    simp [objGet, hrec, orO]

/-- The observable effect of one batch on the tag it writes: a key assigned by
the batch reads back its (last) assigned value, any other key reads what it
read before. -/
theorem getTaggedValues_applyEntries (envs : List (String × Option String))
    (st : DbState) (tag ts q : String) :
    getTaggedValues (applyEntries st tag ts envs) tag q =
      orO (mGet envs q) (getTaggedValues st tag q) := by
  induction envs generalizing st with
  | nil => simp [applyEntries, mGet_nil, orO]
  | cons p rest ih =>
      obtain ⟨k, v⟩ := p
      cases v with
      | none => rw [applyEntries, ih, mGet_cons_none]
      | some w =>
          rw [applyEntries, ih, mGet_cons_some, getTaggedValues_upsertRow]
          cases hrec : mGet rest q with
          | some u => simp [orO]
          | none =>
              by_cases hq : q = k
              · have hk : (k == q) = true := by simp [hq]
                simp [orO, hk, hq]
              · have hk : (k == q) = false := beq_eq_false_iff_ne.mpr (Ne.symm hq)
                simp [orO, hk, hq]

theorem mGet_toEntries (M : List (String × String)) (q : String) :
    mGet (toEntries M) q = objGet M q := by
  induction M with
  | nil => rfl
  | cons p rest ih =>
      obtain ⟨k, v⟩ := p
      rw [toEntries, List.map_cons]
      show mGet ((k, some v) :: toEntries rest) q = _
      rw [mGet_cons_some, ih]
      cases hrec : objGet rest q <;> simp [objGet, hrec, orO]

theorem lookupRows_isSome_mem (rows : List EnvRow) (tag q : String)
    (h : (lookupRows rows tag q).isSome = true) :
    ∃ r ∈ rows, r.tag = tag ∧ r.key = q := by
  induction rows with
  | nil => simp [lookupRows_nil] at h
  | cons r rs ih =>
      rw [lookupRows_cons] at h
      cases hrec : lookupRows rs tag q with
      | some u =>
          obtain ⟨r2, hmem, hp⟩ := ih (by rw [hrec]; rfl)
          exact ⟨r2, List.mem_cons_of_mem _ hmem, hp⟩
      | none =>
          rw [hrec] at h
          by_cases hcond : (r.tag == tag && r.key == q) = true
          · have h1 : r.tag = tag := by simpa using (Bool.and_eq_true_iff.mp hcond).1
            have h2 : r.key = q := by simpa using (Bool.and_eq_true_iff.mp hcond).2
            exact ⟨r, List.mem_cons_self r rs, h1, h2⟩
          · rw [eq_false_of_ne_true hcond] at h
            simp at h

theorem objGet_isSome_of_memKey (M : List (String × String)) (q : String)
    (h : ∃ p ∈ M, p.1 = q) : (objGet M q).isSome = true := by
  induction M with
  | nil => simp at h
  | cons p rest ih =>
      obtain ⟨k, v⟩ := p
      show (match objGet rest q with
        | some w => some w
        | none => if k == q then some v else none).isSome = true
      cases hrec : objGet rest q with
      | some u => simp
      | none =>
          obtain ⟨p2, hmem, hp2⟩ := h
          rcases List.mem_cons.mp hmem with heq | hmem2
          · subst heq
            have hk : k = q := hp2
            subst hk
            simp
          · have := ih ⟨p2, hmem2, hp2⟩
            rw [hrec] at this
            simp at this

end Upsert

/-- C1 (amended): for a non-empty map `M` and a supplied (non-falsy) tag `T`,
`batchUpsertTaggedValues(M, T)` followed by `getTaggedValues(T)` returns
exactly `M` provided every row already stored under `T` has its key in `M`'s
domain (in particular on any store with no rows under `T`).  Without that
proviso stale `(key, T)` rows survive, as `c1_counterexample` shows, because
the upsert never deletes rows. -/
theorem c1_amended_roundtrip (st : Upsert.DbState) (M : List (String × String))
    (T ts q : String) (hT : T ≠ "")
    (hpre : ∀ r ∈ st.rows, r.tag = T → ∃ p ∈ M, p.1 = r.key) :
    Upsert.getTaggedValues
        (Upsert.batchUpsertTaggedValues st (Upsert.toEntries M) (some T) ts) T q =
      Upsert.objGet M q := by
  have hbeq : (T == "") = false := beq_eq_false_iff_ne.mpr hT
  have hres : Upsert.resolvedTag st (some T) = T := by
    simp [Upsert.resolvedTag, hbeq]
  rw [Upsert.batchUpsertTaggedValues, hres, Upsert.getTaggedValues_applyEntries,
    Upsert.mGet_toEntries]
  cases hM : Upsert.objGet M q with
  | some w => rfl
  | none =>
      show Upsert.getTaggedValues st T q = none
      cases hlv : Upsert.getTaggedValues st T q with
      | none => rfl
      | some w =>
          exfalso
          obtain ⟨r, hmem, h1, h2⟩ := Upsert.lookupRows_isSome_mem st.rows T q (by
            rw [← Upsert.getTaggedValues_eq_lookupRows, hlv]; rfl)
          obtain ⟨p, hp, hp1⟩ := hpre r hmem h1
          have hsome := Upsert.objGet_isSome_of_memKey M q ⟨p, hp, by rw [hp1, h2]⟩
          rw [hM] at hsome
          simp at hsome

/-- C1 witness: the amended round-trip at a concrete input — fresh store, map
`{"A":"x"}`, tag `v1`. -/
theorem c1_witness :
    Upsert.getTaggedValues
        (Upsert.batchUpsertTaggedValues Upsert.emptyDb
          (Upsert.toEntries [("A", "x")]) (some "v1") "t1") "v1" "A" =
      Upsert.objGet [("A", "x")] "A" :=
  c1_amended_roundtrip Upsert.emptyDb [("A", "x")] "v1" "t1" "A"
    (by decide) (by decide)

namespace Upsert

theorem any_iff_mem_keysRows (rows : List EnvRow) (k tag : String) :
    rows.any (fun r => r.key == k && r.tag == tag) = true ↔ k ∈ keysRows rows tag := by
  rw [List.any_eq_true]
  constructor
  · rintro ⟨r, hmem, hp⟩
    have h1 : r.key = k := by simpa using (Bool.and_eq_true_iff.mp hp).1
    have h2 : (r.tag == tag) = true := (Bool.and_eq_true_iff.mp hp).2
    rw [keysRows, List.mem_map]
    exact ⟨r, List.mem_filter.mpr ⟨hmem, h2⟩, h1⟩
  · intro hmem
    rw [keysRows, List.mem_map] at hmem
    obtain ⟨r, hr, hk⟩ := hmem
    obtain ⟨hmem2, htag⟩ := List.mem_filter.mp hr
    exact ⟨r, hmem2, by simp [hk, htag]⟩

theorem keysRows_cons (r : EnvRow) (rows : List EnvRow) (tag : String) :
    keysRows (r :: rows) tag =
      if r.tag == tag then r.key :: keysRows rows tag else keysRows rows tag := by
  by_cases h : (r.tag == tag) = true <;> simp [keysRows, List.filter_cons, h]

theorem keysRows_map_of_preserve (rows : List EnvRow) (f : EnvRow → EnvRow)
    (tag2 : String) (hk : ∀ r, (f r).key = r.key) (ht : ∀ r, (f r).tag = r.tag) :
    keysRows (rows.map f) tag2 = keysRows rows tag2 := by
  induction rows with
  | nil => rfl
  | cons r rs ih => rw [List.map_cons, keysRows_cons, keysRows_cons, ht r, hk r, ih]

theorem keysRows_map_update (rows : List EnvRow) (k v ts tag tag2 : String) :
    keysRows (rows.map (fun r =>
        if r.key == k && r.tag == tag then { r with value := v, timestamp := ts } else r))
      tag2 = keysRows rows tag2 := by
  apply keysRows_map_of_preserve
  · intro r
    by_cases h : (r.key == k && r.tag == tag) = true <;> simp [h]
  · intro r
    by_cases h : (r.key == k && r.tag == tag) = true <;> simp [h]

theorem keysRows_append (rows rows2 : List EnvRow) (tag : String) :
    keysRows (rows ++ rows2) tag = keysRows rows tag ++ keysRows rows2 tag := by
  simp [keysRows, List.filter_append]

theorem keysRows_upsertRow (st : DbState) (k v ts tag : String) :
    keysRows (upsertRow st k v ts tag).rows tag =
      if k ∈ keysRows st.rows tag then keysRows st.rows tag
      else keysRows st.rows tag ++ [k] := by
  rw [upsertRow]
  by_cases hex : st.rows.any (fun r => r.key == k && r.tag == tag) = true
  · rw [if_pos hex, if_pos ((any_iff_mem_keysRows st.rows k tag).mp hex)]
    exact keysRows_map_update st.rows k v ts tag tag
  · have hmem : k ∉ keysRows st.rows tag := fun hc =>
      hex ((any_iff_mem_keysRows st.rows k tag).mpr hc)
    rw [if_neg hex, if_neg hmem]
    show keysRows (st.rows ++ [⟨st.nextId, k, v, ts, tag⟩]) tag = _
    rw [keysRows_append]
    simp [keysRows]

theorem keysRows_upsertRow_ne (st : DbState) (k v ts tag tag2 : String)
    (h : tag2 ≠ tag) :
    keysRows (upsertRow st k v ts tag).rows tag2 = keysRows st.rows tag2 := by
  rw [upsertRow]
  by_cases hex : st.rows.any (fun r => r.key == k && r.tag == tag) = true
  · rw [if_pos hex]
    exact keysRows_map_update st.rows k v ts tag tag2
  · rw [if_neg hex]
    show keysRows (st.rows ++ [⟨st.nextId, k, v, ts, tag⟩]) tag2 = _
    rw [keysRows_append]
    have : (tag == tag2) = false := beq_eq_false_iff_ne.mpr (Ne.symm h)
    simp [keysRows, this]

theorem keysRows_applyEntries_fresh (envs : List (String × Option String))
    (st : DbState) (tag ts : String)
    (hdisj : ∀ p ∈ envs, p.1 ∉ keysRows st.rows tag)
    (hnd : (envs.map Prod.fst).Nodup) :
    keysRows (applyEntries st tag ts envs).rows tag =
      keysRows st.rows tag ++ (envs.filterMap (fun p => p.2.map (fun _ => p.1))) := by
  induction envs generalizing st with
  | nil => simp [applyEntries]
  | cons p rest ih =>
      obtain ⟨k, v⟩ := p
      have hnd2 : (rest.map Prod.fst).Nodup := (List.nodup_cons.mp hnd).2
      have hknotin : k ∉ rest.map Prod.fst := (List.nodup_cons.mp hnd).1
      cases v with
      | none =>
          rw [applyEntries, ih st (fun p hp => hdisj p (List.mem_cons_of_mem _ hp)) hnd2]
          simp
      | some w =>
          rw [applyEntries]
          have hkfresh : k ∉ keysRows st.rows tag := hdisj (k, some w) (List.mem_cons_self _ _)
          have hup : keysRows (upsertRow st k w ts tag).rows tag =
              keysRows st.rows tag ++ [k] := by
            rw [keysRows_upsertRow, if_neg hkfresh]
          have hdisj2 : ∀ p ∈ rest, p.1 ∉ keysRows (upsertRow st k w ts tag).rows tag := by
            intro p hp
            rw [hup]
            intro hc
            rcases List.mem_append.mp hc with hc1 | hc2
            · exact hdisj p (List.mem_cons_of_mem _ hp) hc1
            · apply hknotin
              rw [List.mem_singleton] at hc2
              rw [← hc2]
              exact List.mem_map_of_mem Prod.fst hp
          rw [ih (upsertRow st k w ts tag) hdisj2 hnd2, hup]
          simp

theorem keysRows_applyEntries_covered (envs : List (String × Option String))
    (st : DbState) (tag ts : String)
    (hcov : ∀ p ∈ envs, p.1 ∈ keysRows st.rows tag) :
    keysRows (applyEntries st tag ts envs).rows tag = keysRows st.rows tag := by
  induction envs generalizing st with
  | nil => rfl
  | cons p rest ih =>
      obtain ⟨k, v⟩ := p
      cases v with
      | none => exact ih st (fun p hp => hcov p (List.mem_cons_of_mem _ hp))
      | some w =>
          rw [applyEntries]
          have hk : k ∈ keysRows st.rows tag := hcov (k, some w) (List.mem_cons_self _ _)
          have hup : keysRows (upsertRow st k w ts tag).rows tag = keysRows st.rows tag := by
            rw [keysRows_upsertRow, if_pos hk]
          have hcov2 : ∀ p ∈ rest, p.1 ∈ keysRows (upsertRow st k w ts tag).rows tag := by
            intro p hp
            rw [hup]
            exact hcov p (List.mem_cons_of_mem _ hp)
          rw [ih (upsertRow st k w ts tag) hcov2, hup]

end Upsert

namespace Upsert

theorem toEntries_keys (M : List (String × String)) :
    (toEntries M).map Prod.fst = M.map Prod.fst := by
  simp [toEntries]

theorem toEntries_assigned_keys (M : List (String × String)) :
    (toEntries M).filterMap (fun p => p.2.map (fun _ => p.1)) = M.map Prod.fst := by
  induction M with
  | nil => rfl
  | cons p rest ih => simp [toEntries, List.filterMap_cons] at ih ⊢; exact ih

theorem keysRows_eq_nil_of_fresh (rows : List EnvRow) (T : String)
    (hfresh : ∀ r ∈ rows, r.tag ≠ T) : keysRows rows T = [] := by
  have : rows.filter (fun r => r.tag == T) = [] := by
    rw [List.filter_eq_nil_iff]
    intro r hr
    simpa using hfresh r hr
  rw [keysRows, this]
  rfl

theorem rowsWithTag_length_eq (st : DbState) (T : String) :
    (rowsWithTag st T).length = (keysRows st.rows T).length := by
  simp [rowsWithTag, keysRows]

theorem lookup_eq_none_of_fresh (rows : List EnvRow) (T q : String)
    (hfresh : ∀ r ∈ rows, r.tag ≠ T) : lookupRows rows T q = none := by
  apply lookupRows_eq_none
  rw [List.any_eq_false]
  intro r hr
  have : (r.tag == T) = false := beq_eq_false_iff_ne.mpr (hfresh r hr)
  simp [this]

theorem resolvedTag_of_ne_empty (st : DbState) (T : String) (hT : T ≠ "") :
    resolvedTag st (some T) = T := by
  have hbeq : (T == "") = false := beq_eq_false_iff_ne.mpr hT
  simp [resolvedTag, hbeq]

end Upsert

/-- C3: calling `batchUpsertTaggedValues(M, T)` twice in a row with the same
map and the same explicit tag leaves `getTaggedValues(T) == M` and keeps the
number of rows stored under `T` at most `|M|` — modulo the store holding no
rows under `T` beforehand (the second call only updates the rows the first
call inserted). -/
theorem c3_idempotent (M : List (String × String)) (T ts1 ts2 q : String)
    (st : Upsert.DbState) (hT : T ≠ "")
    (hnd : (M.map Prod.fst).Nodup)
    (hfresh : ∀ r ∈ st.rows, r.tag ≠ T) :
    Upsert.getTaggedValues
        (Upsert.batchUpsertTaggedValues
          (Upsert.batchUpsertTaggedValues st (Upsert.toEntries M) (some T) ts1)
          (Upsert.toEntries M) (some T) ts2) T q = Upsert.objGet M q ∧
    (Upsert.rowsWithTag
        (Upsert.batchUpsertTaggedValues
          (Upsert.batchUpsertTaggedValues st (Upsert.toEntries M) (some T) ts1)
          (Upsert.toEntries M) (some T) ts2) T).length ≤ M.length := by
  have hres1 : Upsert.resolvedTag st (some T) = T := Upsert.resolvedTag_of_ne_empty st T hT
  have hres2 : ∀ st2, Upsert.resolvedTag st2 (some T) = T :=
    fun st2 => Upsert.resolvedTag_of_ne_empty st2 T hT
  have hkeys0 : Upsert.keysRows st.rows T = [] :=
    Upsert.keysRows_eq_nil_of_fresh st.rows T hfresh
  have hnd2 : ((Upsert.toEntries M).map Prod.fst).Nodup := by
    rw [Upsert.toEntries_keys]; exact hnd
  have hdisj : ∀ p ∈ Upsert.toEntries M, p.1 ∉ Upsert.keysRows st.rows T := by
    intro p _
    rw [hkeys0]
    exact List.not_mem_nil p.1
  have hkeys1 : Upsert.keysRows
      (Upsert.batchUpsertTaggedValues st (Upsert.toEntries M) (some T) ts1).rows T =
      M.map Prod.fst := by
    rw [Upsert.batchUpsertTaggedValues, hres1,
      Upsert.keysRows_applyEntries_fresh (Upsert.toEntries M) st T ts1 hdisj hnd2,
      hkeys0, Upsert.toEntries_assigned_keys]
    rfl
  have hcov : ∀ p ∈ Upsert.toEntries M, p.1 ∈ Upsert.keysRows
      (Upsert.batchUpsertTaggedValues st (Upsert.toEntries M) (some T) ts1).rows T := by
    intro p hp
    rw [hkeys1, ← Upsert.toEntries_keys]
    exact List.mem_map_of_mem Prod.fst hp
  have hkeys2 : Upsert.keysRows
      (Upsert.batchUpsertTaggedValues
        (Upsert.batchUpsertTaggedValues st (Upsert.toEntries M) (some T) ts1)
        (Upsert.toEntries M) (some T) ts2).rows T = M.map Prod.fst := by
    conv in Upsert.batchUpsertTaggedValues _ (Upsert.toEntries M) (some T) ts2 =>
      rw [Upsert.batchUpsertTaggedValues, hres2]
    rw [Upsert.keysRows_applyEntries_covered (Upsert.toEntries M) _ T ts2 hcov, hkeys1]
  constructor
  · rw [Upsert.batchUpsertTaggedValues, hres2, Upsert.getTaggedValues_applyEntries,
      Upsert.mGet_toEntries, Upsert.batchUpsertTaggedValues, hres1,
      Upsert.getTaggedValues_applyEntries, Upsert.mGet_toEntries]
    have hnone : Upsert.getTaggedValues st T q = none :=
      Upsert.lookup_eq_none_of_fresh st.rows T q hfresh
    rw [hnone]
    cases Upsert.objGet M q <;> rfl
  · rw [Upsert.rowsWithTag_length_eq, hkeys2, List.length_map]

/-- C3 witness: idempotence at a concrete input — fresh store, map
`{"A":"x"}`, tag `v1`. -/
theorem c3_witness :
    Upsert.getTaggedValues
        (Upsert.batchUpsertTaggedValues
          (Upsert.batchUpsertTaggedValues Upsert.emptyDb
            (Upsert.toEntries [("A", "x")]) (some "v1") "t1")
          (Upsert.toEntries [("A", "x")]) (some "v1") "t2") "v1" "A" =
      Upsert.objGet [("A", "x")] "A" ∧
    (Upsert.rowsWithTag
        (Upsert.batchUpsertTaggedValues
          (Upsert.batchUpsertTaggedValues Upsert.emptyDb
            (Upsert.toEntries [("A", "x")]) (some "v1") "t1")
          (Upsert.toEntries [("A", "x")]) (some "v1") "t2") "v1").length ≤
      ([("A", "x")] : List (String × String)).length :=
  c3_idempotent [("A", "x")] "v1" "t1" "t2" "A" Upsert.emptyDb
    (by decide) (by decide) (by decide)

namespace Upsert

theorem filterKey_map_update (rows : List EnvRow) (k v ts tag q : String) (hq : q ≠ k) :
    (rows.map (fun r =>
        if r.key == k && r.tag == tag then { r with value := v, timestamp := ts } else r)).filter
      (fun r => r.key == q) = rows.filter (fun r => r.key == q) := by
  induction rows with
  | nil => rfl
  | cons r rs ih =>
      rw [List.map_cons, List.filter_cons, List.filter_cons, ih]
      by_cases hr : (r.key == k && r.tag == tag) = true
      · rw [if_pos hr]
        have h1 : r.key = k := by simpa using (Bool.and_eq_true_iff.mp hr).1
        have h2 : (r.key == q) = false := by
          rw [h1]
          exact beq_eq_false_iff_ne.mpr (Ne.symm hq)
        simp [h2]
      · rw [if_neg hr]

theorem rowsWithKey_upsertRow_ne (st : DbState) (k v ts tag q : String) (hq : q ≠ k) :
    rowsWithKey (upsertRow st k v ts tag) q = rowsWithKey st q := by
  rw [upsertRow]
  by_cases hex : st.rows.any (fun r => r.key == k && r.tag == tag) = true
  · rw [if_pos hex]
    exact filterKey_map_update st.rows k v ts tag q hq
  · rw [if_neg hex]
    show (st.rows ++ [(⟨st.nextId, k, v, ts, tag⟩ : EnvRow)]).filter (fun r => r.key == q) =
      rowsWithKey st q
    rw [List.filter_append]
    have h1 : (k == q) = false := beq_eq_false_iff_ne.mpr (Ne.symm hq)
    simp [rowsWithKey, h1]

theorem rowsWithKey_applyEntries (envs : List (String × Option String))
    (st : DbState) (tag ts q : String)
    (h : ∀ p ∈ envs, p.2.isSome = true → p.1 ≠ q) :
    rowsWithKey (applyEntries st tag ts envs) q = rowsWithKey st q := by
  induction envs generalizing st with
  | nil => rfl
  | cons p rest ih =>
      obtain ⟨k, v⟩ := p
      cases v with
      | none =>
          rw [applyEntries]
          exact ih st (fun p hp hs => h p (List.mem_cons_of_mem _ hp) hs)
      | some w =>
          rw [applyEntries, ih (upsertRow st k w ts tag)
            (fun p hp hs => h p (List.mem_cons_of_mem _ hp) hs)]
          exact rowsWithKey_upsertRow_ne st k w ts tag q
            (Ne.symm (h (k, some w) (List.mem_cons_self _ _) rfl))

theorem nodupKeys_unique (envs : List (String × Option String)) (k : String)
    (x y : Option String) (hnd : (envs.map Prod.fst).Nodup)
    (hx : (k, x) ∈ envs) (hy : (k, y) ∈ envs) : x = y := by
  induction envs with
  | nil => simp at hx
  | cons p rest ih =>
      rw [List.map_cons, List.nodup_cons] at hnd
      rcases List.mem_cons.mp hx with h1 | h1 <;> rcases List.mem_cons.mp hy with h2 | h2
      · simpa using h1.trans h2.symm
      · exfalso
        apply hnd.1
        have hm : k ∈ rest.map Prod.fst := List.mem_map_of_mem Prod.fst h2
        have hp1 : p.1 = k := by rw [← h1]
        rw [hp1]
        exact hm
      · exfalso
        apply hnd.1
        have hm : k ∈ rest.map Prod.fst := List.mem_map_of_mem Prod.fst h1
        have hp1 : p.1 = k := by rw [← h2]
        rw [hp1]
        exact hm
      · exact ih hnd.2 h1 h2

theorem mGet_eq_none_of_not_mem (envs : List (String × Option String)) (q : String)
    (h : q ∉ envs.map Prod.fst) : mGet envs q = none := by
  induction envs with
  | nil => rfl
  | cons p rest ih =>
      obtain ⟨k, v⟩ := p
      rw [List.map_cons] at h
      have hk : (k == q) = false := by
        apply beq_eq_false_iff_ne.mpr
        intro hc
        exact h (by rw [hc]; exact List.mem_cons_self _ _)
      have hrest : mGet rest q = none := ih (fun hc => h (List.mem_cons_of_mem _ hc))
      cases v with
      | none => rw [mGet_cons_none, hrest]
      | some w => rw [mGet_cons_some, hrest, hk]; rfl

theorem mGet_of_mem_nodup (envs : List (String × Option String)) (q v : String)
    (hnd : (envs.map Prod.fst).Nodup) (hmem : (q, some v) ∈ envs) :
    mGet envs q = some v := by
  induction envs with
  | nil => simp at hmem
  | cons p rest ih =>
      rw [List.map_cons, List.nodup_cons] at hnd
      rcases List.mem_cons.mp hmem with h1 | h1
      · have hrest : mGet rest q = none := by
          apply mGet_eq_none_of_not_mem
          have : p.1 = q := by rw [← h1]
          rw [← this]
          exact hnd.1
        rw [← h1, mGet_cons_some, hrest]
        simp [orO]
      · have hrest : mGet rest q = some v := ih hnd.2 h1
        obtain ⟨k, x⟩ := p
        cases x with
        | none => rw [mGet_cons_none, hrest]
        | some w => rw [mGet_cons_some, hrest]; rfl

theorem filterTag_map_update (rows : List EnvRow) (k v ts tag tag2 : String)
    (h : tag2 ≠ tag) :
    (rows.map (fun r =>
        if r.key == k && r.tag == tag then { r with value := v, timestamp := ts } else r)).filter
      (fun r => r.tag == tag2) = rows.filter (fun r => r.tag == tag2) := by
  induction rows with
  | nil => rfl
  | cons r rs ih =>
      rw [List.map_cons, List.filter_cons, List.filter_cons, ih]
      by_cases hr : (r.key == k && r.tag == tag) = true
      · rw [if_pos hr]
        have h2 : r.tag = tag := by simpa using (Bool.and_eq_true_iff.mp hr).2
        have h3 : (r.tag == tag2) = false := by
          rw [h2]
          exact beq_eq_false_iff_ne.mpr (Ne.symm h)
        simp [h3]
      · rw [if_neg hr]

theorem rowsWithTag_upsertRow_ne (st : DbState) (k v ts tag tag2 : String)
    (h : tag2 ≠ tag) :
    rowsWithTag (upsertRow st k v ts tag) tag2 = rowsWithTag st tag2 := by
  rw [upsertRow]
  by_cases hex : st.rows.any (fun r => r.key == k && r.tag == tag) = true
  · rw [if_pos hex]
    exact filterTag_map_update st.rows k v ts tag tag2 h
  · rw [if_neg hex]
    show (st.rows ++ [(⟨st.nextId, k, v, ts, tag⟩ : EnvRow)]).filter (fun r => r.tag == tag2) =
      rowsWithTag st tag2
    rw [List.filter_append]
    have h1 : (tag == tag2) = false := beq_eq_false_iff_ne.mpr (Ne.symm h)
    simp [rowsWithTag, h1]

theorem rowsWithTag_applyEntries_ne (envs : List (String × Option String))
    (st : DbState) (tag ts tag2 : String) (h : tag2 ≠ tag) :
    rowsWithTag (applyEntries st tag ts envs) tag2 = rowsWithTag st tag2 := by
  induction envs generalizing st with
  | nil => rfl
  | cons p rest ih =>
      obtain ⟨k, v⟩ := p
      cases v with
      | none => rw [applyEntries]; exact ih st
      | some w =>
          rw [applyEntries, ih (upsertRow st k w ts tag)]
          exact rowsWithTag_upsertRow_ne st k w ts tag tag2 h

theorem autoTagName_ne_empty (st : DbState) : autoTagName st ≠ "" := by
  rw [autoTagName]
  intro h
  have hlen := congrArg String.length h
  rw [String.length_append] at hlen
  have h5 : ("auto-" : String).length = 5 := rfl
  rw [h5] at hlen
  simp at hlen

end Upsert

/-- C9: in a `batchUpsertTaggedValues` call, an entry whose value is
`null`/`undefined` is skipped — the rows stored for its key are untouched —
while every other entry of the batch is still applied and reads back its
value under the resolved tag.  (The model is total, so no error is raised.) -/
theorem c9_null_values_skipped (st : Upsert.DbState)
    (envs : List (String × Option String)) (tag : Option String) (ts k k2 v : String)
    (hmem : (k, (none : Option String)) ∈ envs)
    (hnd : (envs.map Prod.fst).Nodup)
    (hmem2 : (k2, some v) ∈ envs) :
    Upsert.rowsWithKey (Upsert.batchUpsertTaggedValues st envs tag ts) k =
      Upsert.rowsWithKey st k ∧
    Upsert.getTaggedValues (Upsert.batchUpsertTaggedValues st envs tag ts)
      (Upsert.resolvedTag st tag) k2 = some v := by
  constructor
  · rw [Upsert.batchUpsertTaggedValues]
    apply Upsert.rowsWithKey_applyEntries
    intro p hp hs hc
    obtain ⟨p1, p2⟩ := p
    have hk : p1 = k := hc
    subst hk
    have : p2 = none := Upsert.nodupKeys_unique envs p1 p2 none hnd hp hmem
    rw [this] at hs
    simp at hs
  · rw [Upsert.batchUpsertTaggedValues, Upsert.getTaggedValues_applyEntries,
      Upsert.mGet_of_mem_nodup envs k2 v hnd hmem2]
    rfl

/-- C9 witness: the skip behaviour at a concrete input — batch
`{"A": null, "B": "b"}` against a fresh store. -/
theorem c9_witness :
    Upsert.rowsWithKey
        (Upsert.batchUpsertTaggedValues Upsert.emptyDb
          [("A", none), ("B", some "b")] (some "v1") "t1") "A" =
      Upsert.rowsWithKey Upsert.emptyDb "A" ∧
    Upsert.getTaggedValues
        (Upsert.batchUpsertTaggedValues Upsert.emptyDb
          [("A", none), ("B", some "b")] (some "v1") "t1")
        (Upsert.resolvedTag Upsert.emptyDb (some "v1")) "B" = some "b" :=
  c9_null_values_skipped Upsert.emptyDb [("A", none), ("B", some "b")]
    (some "v1") "t1" "A" "B" "b" (by decide) (by decide) (by decide)

/-- C10: passing the empty string as the tag argument behaves exactly like
omitting the tag — the JS falsiness check routes both to the auto-generated
`auto-<N>` name — and no row is ever stored under the empty-string tag by the
call. -/
theorem c10_empty_tag_is_auto (st : Upsert.DbState)
    (envs : List (String × Option String)) (ts : String) :
    Upsert.batchUpsertTaggedValues st envs (some "") ts =
      Upsert.batchUpsertTaggedValues st envs none ts ∧
    Upsert.rowsWithTag (Upsert.batchUpsertTaggedValues st envs (some "") ts) "" =
      Upsert.rowsWithTag st "" := by
  have hres : Upsert.resolvedTag st (some "") = Upsert.resolvedTag st none := by
    simp [Upsert.resolvedTag]
  constructor
  · rw [Upsert.batchUpsertTaggedValues, Upsert.batchUpsertTaggedValues, hres]
  · rw [Upsert.batchUpsertTaggedValues, hres]
    exact Upsert.rowsWithTag_applyEntries_ne envs st (Upsert.resolvedTag st none) ts ""
      (Ne.symm (Upsert.autoTagName_ne_empty st))

namespace Upsert

theorem init_le_foldl_max (l : List Nat) (b : Nat) : b ≤ l.foldl max b := by
  induction l generalizing b with
  | nil => exact Nat.le_refl b
  | cons a l ih => exact Nat.le_trans (Nat.le_max_left b a) (ih (max b a))

theorem le_foldl_max (l : List Nat) (b a : Nat) (h : a ∈ l) : a ≤ l.foldl max b := by
  induction l generalizing b with
  | nil => simp at h
  | cons a0 l ih =>
      rcases List.mem_cons.mp h with h1 | h1
      · subst h1
        exact Nat.le_trans (Nat.le_max_right b a) (init_le_foldl_max l (max b a))
      · exact ih (max b a0) h1

theorem foldl_max_le (l : List Nat) (b c : Nat) (hb : b ≤ c) (h : ∀ a ∈ l, a ≤ c) :
    l.foldl max b ≤ c := by
  induction l generalizing b with
  | nil => exact hb
  | cons a0 l ih =>
      apply ih (max b a0) (Nat.max_le.mpr ⟨hb, h a0 (List.mem_cons_self _ _)⟩)
      exact fun a ha => h a (List.mem_cons_of_mem _ ha)

theorem digit_ne_char (c d : Char) (h : isDigitChar c = true)
    (hd : isDigitChar d = false) : (c == d) = false := by
  cases hc : c == d
  · rfl
  · have hcd : c = d := by simpa using hc
    subst hcd
    rw [h] at hd
    exact absurd hd (by simp)

theorem not_ws_of_digit (c : Char) (h : isDigitChar c = true) : wsChar c = false := by
  rw [wsChar, digit_ne_char c ' ' h (by decide), digit_ne_char c '\t' h (by decide),
    digit_ne_char c '\n' h (by decide), digit_ne_char c '\r' h (by decide)]
  rfl

theorem takeWhile_eq_self_of_all (l : List Char) (h : l.all isDigitChar = true) :
    l.takeWhile isDigitChar = l := by
  induction l with
  | nil => rfl
  | cons c cs ih =>
      rw [List.all_cons, Bool.and_eq_true] at h
      rw [List.takeWhile_cons, h.1, ih h.2]
      simp

theorem castIntChars_digits (l : List Char) (hne : l ≠ [])
    (hall : l.all isDigitChar = true) :
    castIntChars l = Int.ofNat (digitsToNat l) := by
  obtain ⟨c, cs, rfl⟩ : ∃ c cs, l = c :: cs := by
    cases l with
    | nil => exact absurd rfl hne
    | cons c cs => exact ⟨c, cs, rfl⟩
  rw [List.all_cons, Bool.and_eq_true] at hall
  have hdrop : (c :: cs).dropWhile wsChar = c :: cs := by
    rw [List.dropWhile_cons, not_ws_of_digit c hall.1]
    simp
  rw [castIntChars, hdrop]
  show (if (c == '-') = true then -(Int.ofNat (digitsToNat (cs.takeWhile isDigitChar)))
      else if (c == '+') = true then Int.ofNat (digitsToNat (cs.takeWhile isDigitChar))
      else Int.ofNat (digitsToNat ((c :: cs).takeWhile isDigitChar))) =
    Int.ofNat (digitsToNat (c :: cs))
  rw [digit_ne_char c '-' hall.1 (by decide), digit_ne_char c '+' hall.1 (by decide)]
  rw [takeWhile_eq_self_of_all (c :: cs)
    (by rw [List.all_cons, Bool.and_eq_true]; exact hall)]
  simp

theorem castSfx_of_parse (t : String) (n : Nat) (h : parseAutoExact t = some n) :
    castSfx t = Int.ofNat n := by
  rw [parseAutoExact] at h
  split at h
  · rename_i rest heq
    split at h
    · rename_i hcond
      have hn : digitsToNat rest = n := by injection h
      rw [castSfx, heq]
      show castIntChars rest = Int.ofNat n
      rw [castIntChars_digits rest hcond.1 hcond.2, hn]
    · exact absurd h (by simp)
  · exact absurd h (by simp)

theorem likeAuto_of_parse (t : String) (n : Nat) (h : parseAutoExact t = some n) :
    likeAuto t = true := by
  rw [parseAutoExact] at h
  split at h
  · rename_i rest heq
    rw [likeAuto, heq]
    rfl
  · exact absurd h (by simp)

theorem topAutoTag_eq_none_iff (l : List String) : topAutoTag l = none ↔ l = [] := by
  cases l with
  | nil => simp [topAutoTag]
  | cons t ts =>
      rw [topAutoTag]
      constructor
      · intro h
        split at h
        · simp at h
        · split at h <;> simp at h
      · intro h
        simp at h

theorem topAutoTag_mem (l : List String) (t : String) (h : topAutoTag l = some t) :
    t ∈ l := by
  induction l generalizing t with
  | nil => simp [topAutoTag] at h
  | cons t0 ts ih =>
      rw [topAutoTag] at h
      split at h
      · have ht : t0 = t := by injection h
        rw [← ht]
        exact List.mem_cons_self _ _
      · rename_i u htop
        split at h
        · have hu : u = t := by injection h
          rw [hu] at htop
          exact List.mem_cons_of_mem _ (ih t htop)
        · have ht : t0 = t := by injection h
          rw [← ht]
          exact List.mem_cons_self _ _

theorem topAutoTag_max (l : List String) (t u : String) (h : topAutoTag l = some t)
    (hu : u ∈ l) : castSfx u ≤ castSfx t := by
  induction l generalizing t with
  | nil => simp at hu
  | cons t0 ts ih =>
      rw [topAutoTag] at h
      split at h
      · rename_i htop
        have ht : t0 = t := by injection h
        have hts : ts = [] := (topAutoTag_eq_none_iff ts).mp htop
        rw [hts] at hu
        have : u = t0 := by simpa using hu
        rw [this, ht]
      · rename_i w htop
        rcases List.mem_cons.mp hu with h1 | h1
        · subst h1
          split at h
          · rename_i hc
            have hw : w = t := by injection h
            rw [← hw]
            exact Int.le_of_lt hc
          · have ht : u = t := by injection h
            rw [ht]
        · have hw : castSfx u ≤ castSfx w := by
            apply ih w _ h1
            exact htop
          split at h
          · rename_i hc
            have hwt : w = t := by injection h
            rw [← hwt]
            exact hw
          · rename_i hc
            have ht : t0 = t := by injection h
            rw [← ht]
            exact Int.le_trans hw (Int.not_lt.mp hc)

theorem filterMap_parse_filter_like (tags : List String) :
    (tags.filter likeAuto).filterMap parseAutoExact = tags.filterMap parseAutoExact := by
  induction tags with
  | nil => rfl
  | cons t ts ih =>
      rw [List.filter_cons]
      by_cases hl : likeAuto t = true
      · rw [if_pos hl, List.filterMap_cons, List.filterMap_cons, ih]
      · rw [if_neg hl, List.filterMap_cons]
        have hp : parseAutoExact t = none := by
          cases hp : parseAutoExact t with
          | none => rfl
          | some n => exact absurd (likeAuto_of_parse t n hp) hl
        rw [hp, ih]

end Upsert

/-- C5 (amended): the auto-tag number is computed from only the single
`auto-%` tag whose cast suffix wins the `ORDER BY .. DESC LIMIT 1`; when every
stored `auto-%` tag matches the exact pattern `auto-<digits>`, this agrees
with the spec's rule `N = 1 + max(N')` (default 1).  A malformed `auto-%` tag
whose integer-cast suffix exceeds every well-formed number is *not* ignored:
it wins the ordering, fails the exact-pattern match, and resets the result to
1 (`c5_counterexample`). -/
theorem c5_amended_auto_tag (st : Upsert.DbState)
    (hwf : ∀ t ∈ st.rows.map (fun r => r.tag),
      Upsert.likeAuto t = true → (Upsert.parseAutoExact t).isSome = true) :
    Upsert.getNextAutoTagNumber st =
      Upsert.specNextAutoTagNumber (st.rows.map (fun r => r.tag)) := by
  rw [Upsert.getNextAutoTagNumber, Upsert.specNextAutoTagNumber]
  cases htop : Upsert.topAutoTag
      ((st.rows.map (fun r => r.tag)).filter Upsert.likeAuto) with
  | none =>
      have hfil : (st.rows.map (fun r => r.tag)).filter Upsert.likeAuto = [] :=
        (Upsert.topAutoTag_eq_none_iff _).mp htop
      have hfm : (st.rows.map (fun r => r.tag)).filterMap Upsert.parseAutoExact = [] := by
        rw [← Upsert.filterMap_parse_filter_like, hfil]
        rfl
      rw [hfm]
      rfl
  | some t =>
      have hmem : t ∈ (st.rows.map (fun r => r.tag)).filter Upsert.likeAuto :=
        Upsert.topAutoTag_mem _ t htop
      have hlike : Upsert.likeAuto t = true := (List.mem_filter.mp hmem).2
      have hmem0 : t ∈ st.rows.map (fun r => r.tag) := (List.mem_filter.mp hmem).1
      obtain ⟨n, hn⟩ := Option.isSome_iff_exists.mp (hwf t hmem0 hlike)
      have hfold : ((st.rows.map (fun r => r.tag)).filterMap
          Upsert.parseAutoExact).foldl max 0 = n := by
        apply Nat.le_antisymm
        · apply Upsert.foldl_max_le _ 0 n (Nat.zero_le n)
          intro a ha
          rw [← Upsert.filterMap_parse_filter_like] at ha
          obtain ⟨u, hu, hpu⟩ := List.mem_filterMap.mp ha
          have hc := Upsert.topAutoTag_max _ t u htop hu
          rw [Upsert.castSfx_of_parse u a hpu, Upsert.castSfx_of_parse t n hn] at hc
          exact Int.ofNat_le.mp hc
        · exact Upsert.le_foldl_max _ 0 n (List.mem_filterMap.mpr ⟨t, hmem0, hn⟩)
      show (match Upsert.parseAutoExact t with
        | none => 1
        | some n => n + 1) =
        ((st.rows.map (fun r => r.tag)).filterMap Upsert.parseAutoExact).foldl max 0 + 1
      rw [hn, hfold]

/-- C5 witness: the amended numbering rule at a concrete input — a store with
well-formed tags `auto-2` and `auto-7` yields 8 on both sides. -/
theorem c5_witness :
    Upsert.getNextAutoTagNumber
        ⟨[⟨1, "K", "v", "t", "auto-2"⟩, ⟨2, "L", "v", "t", "auto-7"⟩], 3⟩ =
      Upsert.specNextAutoTagNumber
        ((⟨[⟨1, "K", "v", "t", "auto-2"⟩, ⟨2, "L", "v", "t", "auto-7"⟩], 3⟩ :
          Upsert.DbState).rows.map (fun r => r.tag)) :=
  c5_amended_auto_tag ⟨[⟨1, "K", "v", "t", "auto-2"⟩, ⟨2, "L", "v", "t", "auto-7"⟩], 3⟩
    (by decide)

namespace Versioned
theorem foldl_max_shift (l : List Nat) (b : Nat) : l.foldl max b = max b (l.foldl max 0) := by
  induction l generalizing b with
  | nil => simp
  | cons a l ih =>
      show l.foldl max (max b a) = max b (l.foldl max (max 0 a))
      rw [ih (max b a), ih (max 0 a), Nat.zero_max, Nat.max_assoc]

theorem versionsRows_append (rows rows2 : List VRecord) (k : String) :
    versionsRows (rows ++ rows2) k = versionsRows rows k ++ versionsRows rows2 k := by
  simp [versionsRows, List.filterMap_append]

theorem versionsFor_addHistoryRecord (st : VState) (rec : VInput) (k : String) :
    versionsFor (addHistoryRecord st rec) k =
      if rec.key == k then
        versionsFor st k ++ [getCurrentVersion st rec.key + 1]
      else versionsFor st k := by
  show versionsRows (st.rows ++ [⟨st.nextId, rec.key, rec.value,
      some (getCurrentVersion st rec.key + 1), rec.timestamp, rec.action, rec.source,
      normTag rec.tag⟩]) k = _
  rw [versionsRows_append]
  have hsingle : versionsRows [⟨st.nextId, rec.key, rec.value,
      some (getCurrentVersion st rec.key + 1), rec.timestamp, rec.action, rec.source,
      normTag rec.tag⟩] k =
      if rec.key == k then [getCurrentVersion st rec.key + 1] else [] := by
    by_cases h : (rec.key == k) = true
    · have he : rec.key = k := by simpa using h
      simp [versionsRows, List.filterMap_cons, he]
    · have he : ¬(rec.key = k) := by simpa using h
      simp [versionsRows, List.filterMap_cons, he]
  rw [hsingle]
  by_cases h : (rec.key == k) = true
  · rw [if_pos h, if_pos h]
    rfl
  · rw [if_neg h, if_neg h]
    simp
    rfl

theorem foldl_max_concat (l : List Nat) (x : Nat) :
    (l ++ [x]).foldl max 0 = max (l.foldl max 0) x := by
  rw [List.foldl_append]
  rfl

theorem range_concat_own (s n : Nat) :
    List.range' s (n + 1) = List.range' s n ++ [s + n] := by
  induction n generalizing s with
  | zero => simp [List.range']
  | succ m ih =>
      rw [List.range'_succ, ih (s + 1), List.range'_succ, List.cons_append]
      have hadd : s + 1 + m = s + (m + 1) := by omega
      rw [hadd]

theorem range1_concat (n : Nat) : List.range' 1 (n + 1) = List.range' 1 n ++ [n + 1] := by
  rw [range_concat_own 1 n]
  have hadd : 1 + n = n + 1 := by omega
  rw [hadd]

theorem foldl_max_range (n : Nat) : (List.range' 1 n).foldl max 0 = n := by
  induction n with
  | zero => rfl
  | succ m ih =>
      rw [range1_concat, foldl_max_concat, ih]
      exact Nat.max_eq_right (Nat.le_succ m)

end Versioned

namespace Versioned

theorem versionsFor_repeatAddKey (k : String) (f : Nat → VInput) (n : Nat) :
    versionsFor (repeatAddKey k f n) k = List.range' 1 n := by
  induction n with
  | zero => rfl
  | succ m ih =>
      rw [repeatAddKey, versionsFor_addHistoryRecord]
      have hk : (({ f m with key := k } : VInput).key == k) = true := by simp
      rw [hk]
      simp only [if_pos]
      have hcur : getCurrentVersion (repeatAddKey k f m) ({ f m with key := k } : VInput).key
          = m := by
        show (versionsFor (repeatAddKey k f m) k).foldl max 0 = m
        rw [ih, foldl_max_range]
      rw [hcur, ih, range1_concat]

theorem getCurrentVersion_addHistoryRecord_same (st : VState) (rec : VInput)
    (hk : rec.key = k) :
    getCurrentVersion (addHistoryRecord st rec) k = getCurrentVersion st k + 1 := by
  rw [getCurrentVersion, versionsFor_addHistoryRecord]
  have hb : (rec.key == k) = true := by simp [hk]
  rw [hb]
  simp only [if_pos]
  rw [foldl_max_concat]
  subst hk
  exact Nat.max_eq_right (Nat.le_succ _)

end Versioned

/-- C4: version assignment in the append/versioning engine.  First, from a
fresh store, `n` successive add-record calls for the same key produce
versions `1, 2, …, n` in call order (each is 1 + the maximum existing
version, defaulting to 0).  Second, inside one `addHistoryRecords` batch the
per-key version is recomputed for each entry, so two entries for the same key
receive the consecutive versions `N+1` and `N+2` above the prior maximum `N`,
not the same number twice. -/
theorem c4_version_monotonic (k : String) (f : Nat → Versioned.VInput) (n : Nat)
    (st : Versioned.VState) (e1 e2 : Versioned.VInput) :
    Versioned.versionsFor (Versioned.repeatAddKey k f n) k = List.range' 1 n ∧
    Versioned.versionsFor
        (Versioned.addHistoryRecords st [{ e1 with key := k }, { e2 with key := k }]) k =
      Versioned.versionsFor st k ++
        [Versioned.getCurrentVersion st k + 1, Versioned.getCurrentVersion st k + 2] := by
  constructor
  · exact Versioned.versionsFor_repeatAddKey k f n
  · show Versioned.versionsFor
        (Versioned.addHistoryRecord
          (Versioned.addHistoryRecord st { e1 with key := k }) { e2 with key := k }) k = _
    rw [Versioned.versionsFor_addHistoryRecord]
    have hk2 : (({ e2 with key := k } : Versioned.VInput).key == k) = true := by simp
    rw [hk2]
    simp only [if_pos]
    rw [Versioned.versionsFor_addHistoryRecord]
    have hk1 : (({ e1 with key := k } : Versioned.VInput).key == k) = true := by simp
    rw [hk1]
    simp only [if_pos]
    have hc1 : Versioned.getCurrentVersion st ({ e1 with key := k } : Versioned.VInput).key =
        Versioned.getCurrentVersion st k := rfl
    have hc2 : Versioned.getCurrentVersion
        (Versioned.addHistoryRecord st { e1 with key := k })
        ({ e2 with key := k } : Versioned.VInput).key =
        Versioned.getCurrentVersion st k + 1 :=
      Versioned.getCurrentVersion_addHistoryRecord_same st { e1 with key := k } rfl
    rw [hc1, hc2, List.append_assoc]
    rfl

namespace Versioned

theorem pickLatest_eq_none_iff (k : String) (rows : List VRecord) :
    pickLatest k rows = none ↔
      rows.any (fun r => r.key == k && r.version.isSome) = false := by
  induction rows with
  | nil => simp [pickLatest]
  | cons r rs ih =>
      rw [pickLatest, List.any_cons]
      by_cases hc : (r.key == k && r.version.isSome) = true
      · rw [if_pos hc, hc]
        simp only [Bool.true_or]
        constructor
        · intro h
          cases hrec : pickLatest k rs with
          | none => rw [hrec] at h; simp at h
          | some a =>
              rw [hrec] at h
              by_cases hv : vval a > vval r <;> simp [hv] at h
        · intro h
          simp at h
      · rw [if_neg hc, ih]
        rw [eq_false_of_ne_true hc]
        simp

theorem versionsRows_eq_nil_of_not_any (k : String) (rows : List VRecord)
    (h : rows.any (fun r => r.key == k && r.version.isSome) = false) :
    versionsRows rows k = [] := by
  induction rows with
  | nil => rfl
  | cons r rs ih =>
      rw [List.any_cons, Bool.or_eq_false_iff] at h
      rw [versionsRows, List.filterMap_cons]
      have htail : versionsRows rs k = [] := ih h.2
      rcases Bool.and_eq_false_iff.mp h.1 with h1 | h1
      · rw [h1]
        exact htail
      · by_cases hk : (r.key == k) = true
        · rw [hk]
          have : r.version = none := by
            cases hv : r.version with
            | none => rfl
            | some v => rw [hv] at h1; simp at h1
          rw [this]
          exact htail
        · rw [eq_false_of_ne_true hk]
          exact htail

theorem pickLatest_spec (k : String) (rows : List VRecord) (r : VRecord)
    (h : pickLatest k rows = some r) :
    r ∈ rows ∧ r.key = k ∧ r.version = some ((versionsRows rows k).foldl max 0) := by
  induction rows generalizing r with
  | nil => simp [pickLatest] at h
  | cons r0 rs ih =>
      rw [pickLatest] at h
      by_cases hc : (r0.key == k && r0.version.isSome) = true
      · rw [if_pos hc] at h
        have hkey : r0.key = k := by simpa using (Bool.and_eq_true_iff.mp hc).1
        obtain ⟨v0, hv0⟩ := Option.isSome_iff_exists.mp (Bool.and_eq_true_iff.mp hc).2
        have hvr : versionsRows (r0 :: rs) k =
            v0 :: versionsRows rs k := by
          rw [versionsRows, List.filterMap_cons]
          have hb : (r0.key == k) = true := by simp [hkey]
          rw [hb, hv0]
          rfl
        have hfold : (versionsRows (r0 :: rs) k).foldl max 0 =
            max v0 ((versionsRows rs k).foldl max 0) := by
          rw [hvr]
          show (versionsRows rs k).foldl max (max 0 v0) = _
          rw [foldl_max_shift, Nat.zero_max]
        cases hrec : pickLatest k rs with
        | none =>
            rw [hrec] at h
            have hr0 : r0 = r := by injection h
            have hnil : versionsRows rs k = [] :=
              versionsRows_eq_nil_of_not_any k rs ((pickLatest_eq_none_iff k rs).mp hrec)
            refine ⟨by rw [← hr0]; exact List.mem_cons_self _ _, by rw [← hr0]; exact hkey, ?_⟩
            rw [hfold, hnil]
            show r.version = some (max v0 0)
            rw [Nat.max_zero, ← hr0, hv0]
        | some a =>
            rw [hrec] at h
            have h2 : (if vval a > vval r0 then some a else some r0) = some r := h
            obtain ⟨hamem, hakey, haver⟩ := ih a hrec
            have hva : vval a = (versionsRows rs k).foldl max 0 := by
              rw [vval, haver]
              rfl
            by_cases hgt : vval a > vval r0
            · rw [if_pos hgt] at h2
              have har : a = r := by injection h2
              refine ⟨by rw [← har]; exact List.mem_cons_of_mem _ hamem,
                by rw [← har]; exact hakey, ?_⟩
              rw [hfold, ← har, haver]
              have hv0le : v0 ≤ (versionsRows rs k).foldl max 0 := by
                rw [← hva]
                have : vval r0 = v0 := by rw [vval, hv0]; rfl
                rw [← this]
                exact Nat.le_of_lt hgt
              rw [Nat.max_eq_right hv0le]
            · rw [if_neg hgt] at h2
              have hr0 : r0 = r := by injection h2
              refine ⟨by rw [← hr0]; exact List.mem_cons_self _ _,
                by rw [← hr0]; exact hkey, ?_⟩
              rw [hfold, ← hr0, hv0]
              have hle : (versionsRows rs k).foldl max 0 ≤ v0 := by
                rw [← hva]
                have : vval r0 = v0 := by rw [vval, hv0]; rfl
                rw [← this]
                exact Nat.not_lt.mp hgt
              rw [Nat.max_eq_left hle]
      · rw [if_neg hc] at h
        obtain ⟨hamem, hakey, haver⟩ := ih r h
        have hskip : versionsRows (r0 :: rs) k = versionsRows rs k := by
          rw [versionsRows, List.filterMap_cons]
          by_cases hk : (r0.key == k) = true
          · rw [hk]
            have : r0.version = none := by
              cases hv : r0.version with
              | none => rfl
              | some v =>
                  exfalso
                  apply hc
                  rw [hk, hv]
                  rfl
            rw [this]
            rfl
          · rw [eq_false_of_ne_true hk]
            rfl
        exact ⟨List.mem_cons_of_mem _ hamem, hakey, by rw [hskip]; exact haver⟩

end Versioned

/-- C8: `getLatestVersion(key)` returns a stored record for that key whose
version is the maximum non-null version, and the null sentinel exactly when
the key has no record with a non-null version; concretely, after
`addRecord("A","1",t1,"created","init")` then
`addRecord("A","2",t2,"updated","set")` it returns the row with value `"2"`
and version 2. -/
theorem c8_latest_version (st : Versioned.VState) (k : String) :
    (if Versioned.hasVersioned st k then
      (match Versioned.getLatestVersion st k with
        | some r => r ∈ st.rows ∧ r.key = k ∧
            r.version = some (Versioned.getCurrentVersion st k)
        | none => False)
    else Versioned.getLatestVersion st k = none) ∧
    Versioned.getLatestVersion
        (Versioned.addHistoryRecord
          (Versioned.addHistoryRecord Versioned.emptyState
            ⟨"A", "1", "t1", "created", "init", none⟩)
          ⟨"A", "2", "t2", "updated", "set", none⟩) "A" =
      some ⟨2, "A", "2", some 2, "t2", "updated", "set", none⟩ := by
  constructor
  · by_cases h : Versioned.hasVersioned st k = true
    · rw [if_pos h]
      cases hl : Versioned.getLatestVersion st k with
      | none =>
          have := (Versioned.pickLatest_eq_none_iff k st.rows).mp hl
          rw [Versioned.hasVersioned] at h
          rw [h] at this
          simp at this
      | some r => exact Versioned.pickLatest_spec k st.rows r hl
    · rw [if_neg h]
      apply (Versioned.pickLatest_eq_none_iff k st.rows).mpr
      rw [Versioned.hasVersioned] at h
      simpa using h
  · decide

namespace Migration
theorem insertTsDesc_map {α β : Type} (f : α → β) (tsa : α → String)
    (tsb : β → String) (hc : ∀ a, tsb (f a) = tsa a) (a : α) (l : List α) :
    insertTsDesc tsb (f a) (l.map f) = (insertTsDesc tsa a l).map f := by
  induction l with
  | nil => rfl
  | cons b bs ih =>
      rw [List.map_cons, insertTsDesc, insertTsDesc, hc a, hc b]
      by_cases h : tsa a < tsa b
      · rw [if_pos h, if_pos h, ih, List.map_cons]
      · rw [if_neg h, if_neg h, List.map_cons, List.map_cons]

theorem sortTsDesc_map {α β : Type} (f : α → β) (tsa : α → String)
    (tsb : β → String) (hc : ∀ a, tsb (f a) = tsa a) (l : List α) :
    sortTsDesc tsb (l.map f) = (sortTsDesc tsa l).map f := by
  induction l with
  | nil => rfl
  | cons a rest ih =>
      rw [List.map_cons, sortTsDesc, sortTsDesc, ih, insertTsDesc_map f tsa tsb hc]

end Migration

/-- C6: both schema migrations (triggered by a `version` column being
present, or by it being NOT NULL) copy every row into the rebuilt table: the
row count is unchanged, each row keeps its `id`, `key`, `value` and
`timestamp`, and `getAllHistory` afterwards returns the same
`(key, value, timestamp)` triples in the same order for any limit. -/
theorem c6_migration_preserves (rowsA : List Migration.RowFull)
    (rowsB : List Migration.RowNN) (limit : Nat) :
    (Migration.migrateDropVersion rowsA).length = rowsA.length ∧
    (Migration.migrateDropVersion rowsA).map (fun r => (r.id, r.key, r.value, r.timestamp)) =
      rowsA.map (fun r => (r.id, r.key, r.value, r.timestamp)) ∧
    (Migration.getAllHistoryNoV (Migration.migrateDropVersion rowsA) limit).map
        (fun r => (r.key, r.value, r.timestamp)) =
      (Migration.getAllHistoryFull rowsA limit).map
        (fun r => (r.key, r.value, r.timestamp)) ∧
    (Migration.migrateRelaxVersion rowsB).length = rowsB.length ∧
    (Migration.migrateRelaxVersion rowsB).map (fun r => (r.id, r.key, r.value, r.timestamp)) =
      rowsB.map (fun r => (r.id, r.key, r.value, r.timestamp)) ∧
    (Migration.getAllHistoryFull (Migration.migrateRelaxVersion rowsB) limit).map
        (fun r => (r.key, r.value, r.timestamp)) =
      (Migration.getAllHistoryNN rowsB limit).map
        (fun r => (r.key, r.value, r.timestamp)) := by
  refine ⟨?_, ?_, ?_, ?_, ?_, ?_⟩
  · rw [Migration.migrateDropVersion, List.length_map]
  · rw [Migration.migrateDropVersion, List.map_map]
    rfl
  · rw [Migration.getAllHistoryNoV, Migration.getAllHistoryFull,
      Migration.migrateDropVersion,
      Migration.sortTsDesc_map Migration.dropVersionRow
        (fun r => r.timestamp) (fun r => r.timestamp) (fun _ => rfl) rowsA,
      ← List.map_take, List.map_map, List.map_take]
    have hfun : ((fun r => (r.key, r.value, r.timestamp)) ∘ Migration.dropVersionRow) =
        (fun (r : Migration.RowFull) => (r.key, r.value, r.timestamp)) := rfl
    rw [hfun, List.map_take]
  · rw [Migration.migrateRelaxVersion, List.length_map]
  · rw [Migration.migrateRelaxVersion, List.map_map]
    rfl
  · rw [Migration.getAllHistoryFull, Migration.getAllHistoryNN,
      Migration.migrateRelaxVersion,
      Migration.sortTsDesc_map Migration.relaxVersionRow
        (fun r => r.timestamp) (fun r => r.timestamp) (fun _ => rfl) rowsB,
      ← List.map_take, List.map_take]
    have hfun : ((fun r => (r.key, r.value, r.timestamp)) ∘ Migration.relaxVersionRow) =
        (fun (r : Migration.RowNN) => (r.key, r.value, r.timestamp)) := rfl
    rw [← List.map_take, List.map_map, hfun]

/-- C7: the schema migration is atomic.  All five statements run inside one
transaction; whatever single statement the failure oracle makes raise, the
committed state is either exactly the original store — the legacy
`env_history` table with all its rows untouched — or the fully migrated one,
and with no injected failure it is the fully migrated one.  No intermediate
(half-migrated) state is ever the result. -/
theorem c7_migration_atomic (rows : List Migration.RowNN) (inject : Nat → Bool) :
    (Migration.runMigrationTxn (Migration.legacyStore rows) inject =
        Migration.legacyStore rows ∨
      Migration.runMigrationTxn (Migration.legacyStore rows) inject =
        Migration.migratedStore rows) ∧
    Migration.runMigrationTxn (Migration.legacyStore rows) (fun _ => false) =
      Migration.migratedStore rows := by
  constructor
  · cases h0 : inject 0 <;> cases h1 : inject 1 <;> cases h2 : inject 2 <;>
      cases h3 : inject 3 <;> cases h4 : inject 4 <;>
      simp [Migration.runMigrationTxn, Migration.injectedSteps, Migration.runSteps,
        Migration.stepCreateNew, Migration.stepCopy, Migration.stepDropOld,
        Migration.stepRename, Migration.stepIndexes, Migration.legacyStore,
        Migration.migratedStore, Migration.tableRows, h0, h1, h2, h3, h4]
  · simp [Migration.runMigrationTxn, Migration.injectedSteps, Migration.runSteps,
      Migration.stepCreateNew, Migration.stepCopy, Migration.stepDropOld,
      Migration.stepRename, Migration.stepIndexes, Migration.legacyStore,
      Migration.migratedStore, Migration.tableRows]
